import Mathlib

/-!
Verification of the MAF running-analyzer pipeline
(`modules/tcx_processing.py`, `modules/classes.py`).

Shallow embedding conventions:
* A pandas cell of a fillable sensor column is `Cell := Option ℚ`; `none`
  models NaN ("missing"), `some 0` models the zero-as-missing sentinel.
* Python floats are modelled as exact rationals `ℚ`; `round` (banker's
  rounding, half to even) is `pyRound` / `pyRoundTo`.
* Cadence values are integers (`int(RunCadence) * 2` in the parser).
* A raised exception is an `Except.error` with an error kind from `PErr`.
* List indexing `data.loc[n, col]` is `List.getD n` with an irrelevant
  default; theorems carry the in-bounds facts.
-/

namespace MAF

deriving instance DecidableEq for Except

/-- One cell of a fillable pandas column: `none` is NaN. -/
abbrev Cell := Option ℚ

/-- `Series.replace(0, method='ffill')` (pandas pad fill on the positions
holding `0`): a cell equal to `0` is replaced by the previous output cell,
other cells pass through.  The initial carry `some 0` reproduces pandas'
pad loop, whose running value starts at `values[0]`, so a leading `0` run
stays `0`. -/
def zeroPass (carry : Cell) : List Cell → List Cell
  | [] => []
  | x :: xs =>
    let cur := if x = some 0 then carry else x
    cur :: zeroPass cur xs

/-- `Series.fillna(method='ffill')`: a NaN cell is replaced by the last
non-NaN value seen so far (leading NaNs stay NaN, carry starts as `none`). -/
def nanPass (carry : Cell) : List Cell → List Cell
  | [] => []
  | x :: xs =>
    let cur := match x with
      | none => carry
      | some v => some v
    cur :: nanPass cur xs

/-- The imputation applied to each of the columns
`speed, cadence, latitude, longitude, altitude` by `clean_garmin_tcx_data`
(tcx_processing.py lines 62-63): first `replace(0, method='ffill')`, then
`fillna(method='ffill')`. -/
def cleanColumn (xs : List Cell) : List Cell :=
  nanPass none (zeroPass (some 0) xs)

/-- Modelled from the spec (spec.md section 4.1), NOT from the source; used
only to compare the source's behaviour against the spec's words.  The spec
says: a zero value is replaced by the nearest preceding non-zero value
(forward-fill), and "any remaining unresolved missing value after one
forward pass (e.g., at index 0) is also forward-filled from the first
subsequently available value".  Forward pass with carry, then each still
unresolved cell (`some 0` or `none`) takes the first subsequent available
(non-zero, non-missing) value. -/
def specFFill (carry : Option ℚ) : List Cell → List Cell
  | [] => []
  | x :: xs =>
    match carry, x with
    | some p, some v =>
        if v = 0 then some p :: specFFill (some p) xs
        else some v :: specFFill (some v) xs
    | some p, none => some p :: specFFill (some p) xs
    | none, some v =>
        if v = 0 then some 0 :: specFFill none xs
        else some v :: specFFill (some v) xs
    | none, none => none :: specFFill none xs

/-- First available (non-zero, non-missing) value of a list, else the
default. -/
def firstAvailable (xs : List Cell) (dflt : Cell) : Cell :=
  ((xs.filter (fun y => decide (y ≠ some 0 ∧ y ≠ none))).head?).getD dflt

/-- Second half of the spec-modelled imputation: every cell left unresolved
by the forward pass is filled from the first subsequently available value. -/
def specBFill : List Cell → List Cell
  | [] => []
  | x :: xs =>
    (if x = some 0 ∨ x = none then firstAvailable xs x else x) :: specBFill xs

/-- Modelled from the spec: the full imputation of one column as the spec
describes it (forward-fill, then back-fill of the still-unresolved cells). -/
def cleanColumnSpecModel (xs : List Cell) : List Cell :=
  specBFill (specFFill none xs)

/-- Python 3 `round(q)`: nearest integer, ties (fractional part exactly 1/2)
to the even neighbour.  Mathlib's `round` rounds ties up, so the tie case is
split off.  Exact for the values this pipeline rounds (sums/quotients of
small integers, exactly representable as floats). -/
def pyRound (q : ℚ) : ℤ :=
  if q - ⌊q⌋ = 1 / 2 then (if ⌊q⌋ % 2 = 0 then ⌊q⌋ else ⌊q⌋ + 1)
  else round q

/-- Python 3 `round(q, d)` for `d` decimal digits. -/
def pyRoundTo (d : ℕ) (q : ℚ) : ℚ :=
  (pyRound (q * 10 ^ d) : ℚ) / 10 ^ d

/-- Error kinds of the pipeline (spec.md section 7).  In the source they are
raised as `ValueError` / built-in exceptions:
`insufficientData` = `min()`/`max()` on an empty sequence inside the
threshold estimator; `segInconsistencyRun` / `segInconsistencyWalk` = the two
explicit `ValueError`s of `extract_running_intervals`; `indexError` =
`data.loc[0, 'time']` on an empty frame; `typeError` = calling
`.total_seconds()` on a float. -/
inductive PErr
  | insufficientData
  | segInconsistencyRun
  | segInconsistencyWalk
  | indexError
  | typeError
deriving DecidableEq, Repr

/-- A value of the `time` column: `dt` is an absolute datetime (as rational
seconds since some epoch), `secs` a plain float of seconds.  After
`clean_garmin_tcx_data` the column holds floats; `.total_seconds()` only
exists on datetime differences. -/
inductive TVal
  | dt (t : ℚ)
  | secs (s : ℚ)
deriving DecidableEq, Repr

/-- The trackpoint DataFrame as produced by `parse_garmin_tcx` and consumed /
produced by `clean_garmin_tcx_data`: `time`, `distance`, `HR` are always
present (the parser raises otherwise); the five fillable columns may hold
NaN; `pace` is created by the cleaning step (empty in raw frames, its input
value is never read). -/
structure RawFrame where
  time : List TVal
  distance : List ℚ
  hr : List ℤ
  speed : List Cell
  cadence : List Cell
  latitude : List Cell
  longitude : List Cell
  altitude : List Cell
  pace : List Cell
deriving DecidableEq, Repr

/-- `round(1 / (0.06 * speed), 2)` followed by `replace(inf, nan)`
(tcx_processing.py lines 65-66): NaN speed gives NaN pace, zero speed gives
`inf`, replaced by NaN. -/
def paceOf (s : Cell) : Cell :=
  match s with
  | none => none
  | some v => if v = 0 then none else some (pyRoundTo 2 (1 / ((6 / 100) * v)))

/-- One cell of `data['time'] - data.loc[0,'time']` followed by
`.apply(lambda x: x.total_seconds())`: subtracting two datetimes yields a
timedelta whose `total_seconds()` succeeds; subtracting floats succeeds but
`.total_seconds()` raises on the float result, and mixed operands raise on
the subtraction itself. -/
def timeSub (t0 t : TVal) : Except PErr TVal :=
  match t, t0 with
  | .dt a, .dt b => .ok (.secs (a - b))
  | _, _ => .error .typeError

/-- Elementwise effectful map, stopping at the first raised error (the
column operation either completes or raises). -/
def mapE : List TVal → (TVal → Except PErr TVal) → Except PErr (List TVal)
  | [], _ => .ok []
  | x :: xs, g =>
    match g x with
    | .error e => .error e
    | .ok y =>
      match mapE xs g with
      | .error e => .error e
      | .ok ys => .ok (y :: ys)

/-- `clean_garmin_tcx_data` (tcx_processing.py lines 53-72): forward-fill the
five fillable columns, compute `pace` from the filled speed, normalize
`time` to seconds since the first sample.  `distance` and `HR` carry no
missing values out of the parser, so the frame-wide `fillna` leaves them
unchanged. -/
def clean (f : RawFrame) : Except PErr RawFrame :=
  match f.time with
  | [] => .error .indexError
  | t0 :: _ =>
    let speed := cleanColumn f.speed
    match mapE f.time (timeSub t0) with
    | .error e => .error e
    | .ok ts =>
      .ok { time := ts, distance := f.distance, hr := f.hr,
            speed := speed, cadence := cleanColumn f.cadence,
            latitude := cleanColumn f.latitude,
            longitude := cleanColumn f.longitude,
            altitude := cleanColumn f.altitude,
            pace := speed.map paceOf }

/-- The cleaned series as consumed by `extract_running_intervals`: `time` in
seconds, `distance` in meters, heart rate and cadence integral. -/
structure Frame where
  time : List ℚ
  distance : List ℚ
  hr : List ℤ
  cadence : List ℤ
deriving DecidableEq, Repr

/-- `[x for x in data['cadence'].values if x > 80]` (tcx_processing.py line
84).  The source also sorts this list; `min`, `max` and the keyed `min`
below do not depend on the order, so the sort is omitted. -/
def filtered80 (cad : List ℤ) : List ℤ :=
  cad.filter (fun x => decide (80 < x))

/-- `round(s / 2, 0)` for an integer `s`, computed exactly over ℤ: an even
sum halves exactly; an odd sum gives a half-integer, which Python's banker
rounding sends to its even neighbour (`Int.fdiv` is floor division, so the
two neighbours are `fdiv s 2` and `fdiv s 2 + 1`). -/
def halfRound (s : ℤ) : ℤ :=
  if s % 2 = 0 then Int.fdiv s 2
  else if Int.fdiv s 2 % 2 = 0 then Int.fdiv s 2
  else Int.fdiv s 2 + 1

/-- `avg_cadence = round((min(cadence) + max(cadence)) / 2, 0)`
(tcx_processing.py line 85).  The `getD` defaults are never used when the
filtered list is non-empty. -/
def avgCadence (cad : List ℤ) : ℤ :=
  halfRound ((filtered80 cad).min?.getD 0 + (filtered80 cad).max?.getD 0)

/-- `[x for x in cadence if 0 < x < avg_cadence]` (tcx_processing.py line
86). -/
def candidatesOf (cad : List ℤ) : List ℤ :=
  (filtered80 cad).filter (fun x => decide (0 < x ∧ x < avgCadence cad))

/-- The threshold estimator of `extract_running_intervals`
(tcx_processing.py lines 84-86).  `min(cands, key=lambda x: avg_cadence - x)`
returns the first element minimizing `avg - x`; the key is strictly
decreasing in `x`, so the result is the maximum of the candidate list (equal
keys force equal values, so the first-occurrence tie rule cannot change the
value).  `min()` / `max()` on the empty filtered list and `min(..., key=...)`
on the empty candidate list raise `ValueError` (= `InsufficientDataError`). -/
def walkCadence (cad : List ℤ) : Except PErr ℤ :=
  match filtered80 cad with
  | [] => .error .insufficientData
  | _ :: _ =>
    match (candidatesOf cad).max? with
    | some w => .ok w
    | none => .error .insufficientData

/-- The running/walking state of one sample: `cadence > walk_cadence`. -/
def stOf (wc c : ℤ) : Bool :=
  decide (wc < c)

/-- The scan loop of `extract_running_intervals` (tcx_processing.py lines
89-97): `n` is the index of the current sample `c`, `prev` the previous
sample's cadence; returns
`(started_running, stopped_running, started_walking', stopped_walking')`
where the two primed lists still lack the initial `0` and the final `N-1`
added outside the loop.  The loop appends in increasing `n`, so prepending
at each recursion step reproduces the lists in order.  The two `if`s of the
source are mutually exclusive, hence the `else`. -/
def segScan (wc : ℤ) : ℕ → ℤ → List ℤ → List ℕ × List ℕ × List ℕ × List ℕ
  | _, _, [] => ([], [], [], [])
  | n, prev, c :: rest =>
    let r := segScan wc (n + 1) c rest
    if wc < c ∧ prev ≤ wc then (n :: r.1, r.2.1, r.2.2.1, (n - 1) :: r.2.2.2)
    else if c ≤ wc ∧ wc < prev then (r.1, (n - 1) :: r.2.1, n :: r.2.2.1, r.2.2.2)
    else r

/-- Boundary-index pairs of `extract_running_intervals` (tcx_processing.py
lines 89-111): run the scan with `started_walking = [0]`, append
`data.index[-1] = N - 1` to `stopped_walking`, perform the two consistency
checks (run first, then walk), and pair the boundary lists with `zip`.  An
empty frame raises in `data.index[-1]`. -/
def intervalPairs (wc : ℤ) (cad : List ℤ) :
    Except PErr (List (ℕ × ℕ) × List (ℕ × ℕ)) :=
  match cad with
  | [] => .error .indexError
  | c :: rest =>
    let r := segScan wc 1 c rest
    let runStarts := r.1
    let runStops := r.2.1
    let walkStarts := 0 :: r.2.2.1
    let walkStops := r.2.2.2 ++ [rest.length]
    if runStarts.length ≠ runStops.length then .error .segInconsistencyRun
    else if walkStarts.length ≠ walkStops.length then .error .segInconsistencyWalk
    else .ok (runStarts.zip runStops, walkStarts.zip walkStops)

/-- The `type` tag of an interval row (`'run'` / `'walk'`). -/
inductive IKind
  | run
  | walk
deriving DecidableEq, Repr

/-- One row of the `running_intervals` DataFrame (tcx_processing.py lines
108-145), including the derived columns. -/
structure Interval where
  start_time : ℚ
  stop_time : ℚ
  start_dist : ℚ
  stop_dist : ℚ
  dHR : ℤ
  type : IKind
  duration : ℚ
  distance : ℚ
  hrrate : ℚ
deriving DecidableEq, Repr

/-- Builds one interval row from a boundary pair (tcx_processing.py lines
111-145).  `hrrate = abs(dHR / duration * 60)`; for `duration = 0` pandas
would give inf/NaN where rational division gives `0` — no claim below
depends on `hrrate`. -/
def mkInterval (f : Frame) (k : IKind) (p : ℕ × ℕ) : Interval :=
  let stT := f.time.getD p.1 0
  let spT := f.time.getD p.2 0
  let stD := f.distance.getD p.1 0
  let spD := f.distance.getD p.2 0
  let dhr := f.hr.getD p.2 0 - f.hr.getD p.1 0
  { start_time := stT, stop_time := spT, start_dist := stD, stop_dist := spD,
    dHR := dhr, type := k,
    duration := spT - stT, distance := spD - stD,
    hrrate := |(dhr : ℚ) / (spT - stT) * 60| }

/-- `extract_running_intervals` (tcx_processing.py lines 74-153): estimate
the threshold, compute and check the boundary pairs, then emit one row per
pair, skipping the degenerate pairs with `start == stop` (lines 113 and
128), runs first, then walks. -/
def extract (f : Frame) : Except PErr (List Interval) :=
  match walkCadence f.cadence with
  | .error e => .error e
  | .ok wc =>
    match intervalPairs wc f.cadence with
    | .error e => .error e
    | .ok (rp, wp) =>
      .ok (((rp.filter (fun p => decide (p.1 ≠ p.2))).map (mkInterval f .run)) ++
           ((wp.filter (fun p => decide (p.1 ≠ p.2))).map (mkInterval f .walk)))

/-- `run_pct` of `GarminDB.update_db` (classes.py lines 150-152):
`round(run_duration / (run_duration + walk_duration) * 100, 1)` where the
durations are summed per `type`. -/
def runPercentage (ivs : List Interval) : ℚ :=
  let r := ((ivs.filter (fun iv => decide (iv.type = IKind.run))).map Interval.duration).sum
  let w := ((ivs.filter (fun iv => decide (iv.type = IKind.walk))).map Interval.duration).sum
  pyRoundTo 1 (r / (r + w) * 100)

/-- The maximal constant-state blocks of the series, used to state what the
scan produces: `blocksZ wc s n cur l` lists `(start, stop, state)` for the
series whose current open block has state `cur` and started at index `s`,
with `l` the samples from index `n` on. -/
def blocksZ (wc : ℤ) : ℕ → ℕ → Bool → List ℤ → List (ℕ × ℕ × Bool)
  | s, n, cur, [] => [(s, n - 1, cur)]
  | s, n, cur, c :: rest =>
    if stOf wc c = cur then blocksZ wc s (n + 1) cur rest
    else (s, n - 1, cur) :: blocksZ wc n (n + 1) (stOf wc c) rest

/-- Index ranges of the running blocks. -/
def truePairs (B : List (ℕ × ℕ × Bool)) : List (ℕ × ℕ) :=
  (B.filter (fun b => b.2.2)).map (fun b => (b.1, b.2.1))

/-- Index ranges of the walking blocks. -/
def falsePairs (B : List (ℕ × ℕ × Bool)) : List (ℕ × ℕ) :=
  (B.filter (fun b => !b.2.2)).map (fun b => (b.1, b.2.1))

/-! Concrete cleaned series used to evaluate the pipeline. -/

/-- The 10-sample scenario of spec.md section 8: cadence
`[70,70,70,160,162,160,158,70,70,70]`, constant heart rate 140, 3 m and 1 s
per sample. -/
def frame6 : Frame :=
  { time := [0, 1, 2, 3, 4, 5, 6, 7, 8, 9],
    distance := [0, 3, 6, 9, 12, 15, 18, 21, 24, 27],
    hr := [140, 140, 140, 140, 140, 140, 140, 140, 140, 140],
    cadence := [70, 70, 70, 160, 162, 160, 158, 70, 70, 70] }

/-- A cleaned series with a one-sample running block: the estimator yields
`walk_cadence = 100`, and sample 2 forms a degenerate run segment. -/
def frameGap : Frame :=
  { time := [0, 1, 2, 3, 4], distance := [0, 3, 6, 9, 12],
    hr := [140, 140, 140, 140, 140], cadence := [70, 100, 160, 70, 70] }

/-- A cleaned series that ends above the threshold (`walk_cadence = 100`). -/
def frameEndsRun : Frame :=
  { time := [0, 1, 2], distance := [0, 3, 6],
    hr := [140, 140, 140], cadence := [70, 100, 160] }

/-- A cleaned series with exactly one threshold crossing: cadences
`70, 70, 100` at or below the estimated `walk_cadence = 100`, then `160`
above it. -/
def frameSingleCross : Frame :=
  { time := [0, 1, 2, 3], distance := [0, 3, 6, 9],
    hr := [140, 140, 140, 140], cadence := [70, 70, 100, 160] }

/-- A cleaned series that starts and ends above the threshold
(`walk_cadence = 90`), with monotone time and distance. -/
def frameStartsRun : Frame :=
  { time := [0, 1, 2, 3, 4], distance := [0, 3, 6, 9, 12],
    hr := [140, 140, 140, 140, 140], cadence := [150, 150, 90, 150, 150] }

/-- A two-sample raw frame straight out of the parser: datetime time stamps,
a missing speed column and a zero cadence cell. -/
def rawDemo : RawFrame :=
  { time := [.dt 0, .dt 10], distance := [0, 3], hr := [140, 150],
    speed := [none, none], cadence := [some 100, some 0],
    latitude := [none, none], longitude := [none, none],
    altitude := [none, none], pace := [] }

/-- The result of cleaning `rawDemo` once. -/
def cleanedDemo : RawFrame :=
  { time := [.secs 0, .secs 10], distance := [0, 3], hr := [140, 150],
    speed := [none, none], cadence := [some 100, some 100],
    latitude := [none, none], longitude := [none, none],
    altitude := [none, none], pace := [none, none] }

/-- The interval rows `extract_running_intervals` emits on `frame6`. -/
def frame6Intervals : List Interval :=
  [{ start_time := 3, stop_time := 5, start_dist := 9, stop_dist := 15,
     dHR := 0, type := .run, duration := 2, distance := 6, hrrate := 0 },
   { start_time := 0, stop_time := 2, start_dist := 0, stop_dist := 6,
     dHR := 0, type := .walk, duration := 2, distance := 6, hrrate := 0 },
   { start_time := 6, stop_time := 9, start_dist := 18, stop_dist := 27,
     dHR := 0, type := .walk, duration := 3, distance := 9, hrrate := 0 }]

/-- The interval rows `extract_running_intervals` emits on `frameStartsRun`
(threshold 90): the run pair comes out as `(3, 1)` — start after stop — so
its duration and distance are negative. -/
def frameStartsRunIntervals : List Interval :=
  [{ start_time := 3, stop_time := 1, start_dist := 9, stop_dist := 3,
     dHR := 0, type := .run, duration := -2, distance := -6, hrrate := 0 },
   { start_time := 0, stop_time := 2, start_dist := 0, stop_dist := 6,
     dHR := 0, type := .walk, duration := 2, distance := 6, hrrate := 0 },
   { start_time := 2, stop_time := 4, start_dist := 6, stop_dist := 12,
     dHR := 0, type := .walk, duration := 2, distance := 6, hrrate := 0 }]

/-! General lemmas about the embedded pipeline. -/

theorem extract_frame6 : extract frame6 = .ok frame6Intervals := by
  simp [extract, frame6, frame6Intervals, walkCadence, filtered80, candidatesOf,
        avgCadence, intervalPairs, segScan, mkInterval,
        show halfRound 320 = 160 from by decide]
  norm_num

theorem max?_spec {l : List ℤ} {a : ℤ} (h : l.max? = some a) :
    a ∈ l ∧ ∀ b ∈ l, b ≤ a := by
  refine ⟨List.max?_mem max_choice h, fun b hb => ?_⟩
  exact (List.max?_le_iff (fun _ _ _ => max_le_iff) h).mp le_rfl b hb

theorem min?_spec {l : List ℤ} {a : ℤ} (h : l.min? = some a) :
    a ∈ l ∧ ∀ b ∈ l, a ≤ b := by
  refine ⟨List.min?_mem min_choice h, fun b hb => ?_⟩
  exact (List.le_min?_iff (fun _ _ _ => le_min_iff) h).mp le_rfl b hb

theorem foldl_max_map_add (c : ℤ) :
    ∀ (xs : List ℤ) (x : ℤ),
      (xs.map (fun y => y + c)).foldl max (x + c) = xs.foldl max x + c := by
  intro xs
  induction xs with
  | nil => intro x; rfl
  | cons y ys ih =>
    intro x
    simp only [List.map_cons, List.foldl_cons, max_add_add_right]
    exact ih (max x y)

theorem foldl_min_map_add (c : ℤ) :
    ∀ (xs : List ℤ) (x : ℤ),
      (xs.map (fun y => y + c)).foldl min (x + c) = xs.foldl min x + c := by
  intro xs
  induction xs with
  | nil => intro x; rfl
  | cons y ys ih =>
    intro x
    simp only [List.map_cons, List.foldl_cons, min_add_add_right]
    exact ih (min x y)

theorem max?_map_add (c : ℤ) (l : List ℤ) :
    (l.map (fun y => y + c)).max? = l.max?.map (fun y => y + c) := by
  cases l with
  | nil => rfl
  | cons x xs => simp [List.max?, foldl_max_map_add]

theorem min?_map_add (c : ℤ) (l : List ℤ) :
    (l.map (fun y => y + c)).min? = l.min?.map (fun y => y + c) := by
  cases l with
  | nil => rfl
  | cons x xs => simp [List.min?, foldl_min_map_add]

/-- Counting the transitions of the scan: the number of walk-to-run
transitions plus the running indicator of the first sample equals the number
of run-to-walk transitions plus the running indicator of the last sample. -/
theorem segScan_count (wc : ℤ) :
    ∀ (l : List ℤ) (n : ℕ) (prev : ℤ),
      (segScan wc n prev l).1.length + (if wc < prev then 1 else 0)
        = (segScan wc n prev l).2.1.length
          + (if wc < l.getLastD prev then 1 else 0) := by
  intro l
  induction l with
  | nil => intro n prev; rfl
  | cons c rest ih =>
    intro n prev
    rw [List.getLastD_cons]
    have h := ih (n + 1) c
    simp only [segScan]
    split_ifs at h ⊢ <;>
      first
        | omega
        | (simp only [List.length_cons] at h ⊢; omega)

/-- The scan reproduces the block decomposition of the series, provided the
series ends in walking state: the zipped run boundary lists are exactly the
running blocks (with a pending run start `s` when the scan begins in running
state), and the zipped walk boundary lists, with the pending walk start `s`
and the final stop appended, are exactly the walking blocks. -/
theorem truePairs_cons_true (a b : ℕ) (B : List (ℕ × ℕ × Bool)) :
    truePairs ((a, b, true) :: B) = (a, b) :: truePairs B := by
  simp [truePairs]

theorem truePairs_cons_false (a b : ℕ) (B : List (ℕ × ℕ × Bool)) :
    truePairs ((a, b, false) :: B) = truePairs B := by
  simp [truePairs]

theorem falsePairs_cons_true (a b : ℕ) (B : List (ℕ × ℕ × Bool)) :
    falsePairs ((a, b, true) :: B) = falsePairs B := by
  simp [falsePairs]

theorem falsePairs_cons_false (a b : ℕ) (B : List (ℕ × ℕ × Bool)) :
    falsePairs ((a, b, false) :: B) = (a, b) :: falsePairs B := by
  simp [falsePairs]

theorem segScan_blocks (wc : ℤ) :
    ∀ (l : List ℤ) (n s : ℕ) (prev : ℤ),
      stOf wc (l.getLastD prev) = false →
      (stOf wc prev = true →
          (s :: (segScan wc n prev l).1).zip (segScan wc n prev l).2.1
            = truePairs (blocksZ wc s n true l)
          ∧ (segScan wc n prev l).2.2.1.zip
              ((segScan wc n prev l).2.2.2 ++ [n + l.length - 1])
            = falsePairs (blocksZ wc s n true l))
        ∧ (stOf wc prev = false →
          (segScan wc n prev l).1.zip (segScan wc n prev l).2.1
            = truePairs (blocksZ wc s n false l)
          ∧ (s :: (segScan wc n prev l).2.2.1).zip
              ((segScan wc n prev l).2.2.2 ++ [n + l.length - 1])
            = falsePairs (blocksZ wc s n false l)) := by
  intro l
  induction l with
  | nil =>
    intro n s prev hlast
    simp only [List.getLastD] at hlast
    constructor
    · intro hT
      exact Bool.noConfusion (hT.symm.trans hlast)
    · intro _
      refine ⟨?_, ?_⟩
      · simp [segScan, blocksZ, truePairs]
      · simp [segScan, blocksZ, falsePairs]
  | cons c rest ih =>
    intro n s prev hlast
    rw [List.getLastD_cons] at hlast
    have hlen : n + (c :: rest).length - 1 = n + 1 + rest.length - 1 := by
      simp only [List.length_cons]
      omega
    rcases Bool.eq_false_or_eq_true (stOf wc c) with hc | hc <;>
      rcases Bool.eq_false_or_eq_true (stOf wc prev) with hcur | hcur
    · -- both running: no transition
      have hcp : wc < prev := by
        simpa only [stOf, decide_eq_true_eq] using hcur
      have hcc : wc < c := by
        simpa only [stOf, decide_eq_true_eq] using hc
      have h1 : ¬(wc < c ∧ prev ≤ wc) := fun h => absurd hcp (not_lt.mpr h.2)
      have h2 : ¬(c ≤ wc ∧ wc < prev) := fun h => absurd hcc (not_lt.mpr h.1)
      have hseg : segScan wc n prev (c :: rest) = segScan wc (n + 1) c rest := by
        simp only [segScan]
        rw [if_neg h1, if_neg h2]
      have hblk : blocksZ wc s n true (c :: rest) = blocksZ wc s (n + 1) true rest := by
        simp only [blocksZ]
        rw [if_pos hc]
      constructor
      · intro _
        have h' := (ih (n + 1) s c hlast).1 hc
        rw [hseg, hblk, hlen]
        exact h'
      · intro hF
        exact Bool.noConfusion (hcur.symm.trans hF)
    · -- rise: walking to running
      have hcp : ¬ wc < prev := by
        simpa only [stOf, decide_eq_false_iff_not] using hcur
      have hcc : wc < c := by
        simpa only [stOf, decide_eq_true_eq] using hc
      have h1 : wc < c ∧ prev ≤ wc := ⟨hcc, not_lt.mp hcp⟩
      have hseg : segScan wc n prev (c :: rest)
          = (n :: (segScan wc (n + 1) c rest).1,
             (segScan wc (n + 1) c rest).2.1,
             (segScan wc (n + 1) c rest).2.2.1,
             (n - 1) :: (segScan wc (n + 1) c rest).2.2.2) := by
        simp only [segScan]
        rw [if_pos h1]
      have hblk : blocksZ wc s n false (c :: rest)
          = (s, n - 1, false) :: blocksZ wc n (n + 1) true rest := by
        simp only [blocksZ]
        rw [if_neg (by simp [hc]), hc]
      constructor
      · intro hT
        exact Bool.noConfusion (hT.symm.trans hcur)
      · intro _
        have h' := (ih (n + 1) n c hlast).1 hc
        refine ⟨?_, ?_⟩
        · rw [hseg, hblk, truePairs_cons_false]
          exact h'.1
        · rw [hseg, hblk, falsePairs_cons_false, List.cons_append,
              List.zip_cons_cons, hlen, h'.2]
    · -- fall: running to walking
      have hcp : wc < prev := by
        simpa only [stOf, decide_eq_true_eq] using hcur
      have hcc : ¬ wc < c := by
        simpa only [stOf, decide_eq_false_iff_not] using hc
      have h1 : ¬(wc < c ∧ prev ≤ wc) := fun h => hcc h.1
      have h2 : c ≤ wc ∧ wc < prev := ⟨not_lt.mp hcc, hcp⟩
      have hseg : segScan wc n prev (c :: rest)
          = ((segScan wc (n + 1) c rest).1,
             (n - 1) :: (segScan wc (n + 1) c rest).2.1,
             n :: (segScan wc (n + 1) c rest).2.2.1,
             (segScan wc (n + 1) c rest).2.2.2) := by
        simp only [segScan]
        rw [if_neg h1, if_pos h2]
      have hblk : blocksZ wc s n true (c :: rest)
          = (s, n - 1, true) :: blocksZ wc n (n + 1) false rest := by
        simp only [blocksZ]
        rw [if_neg (by simp [hc]), hc]
      constructor
      · intro _
        have h' := (ih (n + 1) n c hlast).2 hc
        refine ⟨?_, ?_⟩
        · rw [hseg, hblk, truePairs_cons_true, List.zip_cons_cons, h'.1]
        · rw [hseg, hblk, falsePairs_cons_true, hlen]
          exact h'.2
      · intro hF
        exact Bool.noConfusion (hcur.symm.trans hF)
    · -- both walking: no transition
      have hcp : ¬ wc < prev := by
        simpa only [stOf, decide_eq_false_iff_not] using hcur
      have hcc : ¬ wc < c := by
        simpa only [stOf, decide_eq_false_iff_not] using hc
      have h1 : ¬(wc < c ∧ prev ≤ wc) := fun h => hcc h.1
      have h2 : ¬(c ≤ wc ∧ wc < prev) := fun h => hcp h.2
      have hseg : segScan wc n prev (c :: rest) = segScan wc (n + 1) c rest := by
        simp only [segScan]
        rw [if_neg h1, if_neg h2]
      have hblk : blocksZ wc s n false (c :: rest) = blocksZ wc s (n + 1) false rest := by
        simp only [blocksZ]
        rw [if_pos hc]
      constructor
      · intro hT
        exact Bool.noConfusion (hT.symm.trans hcur)
      · intro _
        have h' := (ih (n + 1) s c hlast).2 hc
        rw [hseg, hblk, hlen]
        exact h'

/-- Every block of `blocksZ wc s n cur l` (with `s < n`) has an in-range,
correctly ordered index range. -/
theorem blocksZ_bounds (wc : ℤ) :
    ∀ (l : List ℤ) (s n : ℕ) (cur : Bool), s < n →
      ∀ b ∈ blocksZ wc s n cur l,
        s ≤ b.1 ∧ b.1 ≤ b.2.1 ∧ b.2.1 < n + l.length := by
  intro l
  induction l with
  | nil =>
    intro s n cur hsn b hb
    simp only [blocksZ, List.mem_singleton] at hb
    subst hb
    refine ⟨le_refl _, ?_, ?_⟩ <;> dsimp only <;> omega
  | cons c rest ih =>
    intro s n cur hsn b hb
    simp only [blocksZ] at hb
    by_cases hcc : stOf wc c = cur
    · rw [if_pos hcc] at hb
      have h := ih s (n + 1) cur (by omega) b hb
      refine ⟨h.1, h.2.1, ?_⟩
      simp only [List.length_cons]
      omega
    · rw [if_neg hcc] at hb
      rcases List.mem_cons.mp hb with hb | hb
      · subst hb
        refine ⟨le_refl _, ?_, ?_⟩
        · dsimp only
          omega
        · dsimp only
          simp only [List.length_cons]
          omega
      · have h := ih n (n + 1) (stOf wc c) (by omega) b hb
        refine ⟨by omega, h.2.1, ?_⟩
        simp only [List.length_cons]
        omega

/-- Every in-range index is covered by exactly one block. -/
theorem blocksZ_cover (wc : ℤ) :
    ∀ (l : List ℤ) (s n : ℕ) (cur : Bool) (m : ℕ),
      s < n → s ≤ m → m < n + l.length →
      (blocksZ wc s n cur l).countP (fun b => decide (b.1 ≤ m ∧ m ≤ b.2.1)) = 1 := by
  intro l
  induction l with
  | nil =>
    intro s n cur m hsn hsm hm
    simp only [List.length_nil] at hm
    have hdt : (fun b => decide (b.1 ≤ m ∧ m ≤ b.2.1)) ((s, n - 1, cur) : ℕ × ℕ × Bool)
        = true := by
      dsimp only
      exact decide_eq_true ⟨hsm, by omega⟩
    simp only [blocksZ]
    rw [List.countP_cons, List.countP_nil, if_pos hdt]
  | cons c rest ih =>
    intro s n cur m hsn hsm hm
    simp only [List.length_cons] at hm
    simp only [blocksZ]
    by_cases hcc : stOf wc c = cur
    · rw [if_pos hcc]
      exact ih s (n + 1) cur m (by omega) hsm (by omega)
    · rw [if_neg hcc]
      rw [List.countP_cons]
      by_cases hmn : m < n
      · have hdt : (fun b => decide (b.1 ≤ m ∧ m ≤ b.2.1))
            ((s, n - 1, cur) : ℕ × ℕ × Bool) = true := by
          dsimp only
          exact decide_eq_true ⟨hsm, by omega⟩
        have hz : (blocksZ wc n (n + 1) (stOf wc c) rest).countP
            (fun b => decide (b.1 ≤ m ∧ m ≤ b.2.1)) = 0 := by
          refine List.countP_eq_zero.mpr (fun b hb => ?_)
          have h := blocksZ_bounds wc rest n (n + 1) (stOf wc c) (by omega) b hb
          simp only [decide_eq_true_eq]
          omega
        rw [hz, if_pos hdt]
      · have hdf : ¬((fun b => decide (b.1 ≤ m ∧ m ≤ b.2.1))
            ((s, n - 1, cur) : ℕ × ℕ × Bool) = true) := by
          dsimp only
          rw [decide_eq_false (by omega : ¬(s ≤ m ∧ m ≤ n - 1))]
          exact Bool.false_ne_true
        have hz : (blocksZ wc n (n + 1) (stOf wc c) rest).countP
            (fun b => decide (b.1 ≤ m ∧ m ≤ b.2.1)) = 1 :=
          ih n (n + 1) (stOf wc c) m (by omega) (by omega) (by omega)
        rw [hz, if_neg hdf]

theorem countP_bool_and {α : Type} (p q : α → Bool) (l : List α) :
    l.countP (fun a => p a && q a) + l.countP (fun a => p a && !q a)
      = l.countP p := by
  induction l with
  | nil => rfl
  | cons x xs ih =>
    simp only [List.countP_cons]
    cases hp : p x <;> cases hq : q x <;> simp [hp, hq] <;> omega

/-- The scan produces as many walk starts as run stops, and as many walk
stops (before the final append) as run starts. -/
theorem segScan_lens (wc : ℤ) :
    ∀ (l : List ℤ) (n : ℕ) (prev : ℤ),
      (segScan wc n prev l).2.2.1.length = (segScan wc n prev l).2.1.length
        ∧ (segScan wc n prev l).2.2.2.length = (segScan wc n prev l).1.length := by
  intro l
  induction l with
  | nil => intro n prev; exact ⟨rfl, rfl⟩
  | cons c rest ih =>
    intro n prev
    have h := ih (n + 1) c
    simp only [segScan]
    split
    · simpa using ⟨h.1, h.2⟩
    · split
      · simpa using ⟨h.1, h.2⟩
      · exact h

/-- The run consistency check passes exactly when the first and last samples
lie on the same side of the threshold. -/
theorem checks_iff (wc c : ℤ) (rest : List ℤ) :
    (segScan wc 1 c rest).1.length = (segScan wc 1 c rest).2.1.length
      ↔ ((c ≤ wc) ↔ (rest.getLastD c ≤ wc)) := by
  have h := segScan_count wc rest 1 c
  by_cases h1 : wc < c <;> by_cases h2 : wc < rest.getLastD c
  · rw [if_pos h1, if_pos h2] at h
    exact iff_of_true (by omega) (iff_of_false (not_le.mpr h1) (not_le.mpr h2))
  · rw [if_pos h1, if_neg h2] at h
    exact iff_of_false (by omega)
      (fun hif => absurd (hif.mpr (not_lt.mp h2)) (not_le.mpr h1))
  · rw [if_neg h1, if_pos h2] at h
    exact iff_of_false (by omega)
      (fun hif => absurd (hif.mp (not_lt.mp h1)) (not_le.mpr h2))
  · rw [if_neg h1, if_neg h2] at h
    exact iff_of_true (by omega) (iff_of_true (not_lt.mp h1) (not_lt.mp h2))

/-- `extract_running_intervals` passes its two consistency checks exactly
when the first and last samples lie on the same side of the threshold. -/
theorem intervalPairs_ok_iff (wc c : ℤ) (rest : List ℤ) :
    (∃ pr, intervalPairs wc (c :: rest) = .ok pr)
      ↔ ((c ≤ wc) ↔ (rest.getLastD c ≤ wc)) := by
  have hl := segScan_lens wc rest 1 c
  have hc := checks_iff wc c rest
  simp only [intervalPairs]
  split_ifs with hr hw
  · constructor
    · rintro ⟨pr, hpr⟩
      exact hpr.elim
    · intro hif
      exact absurd (hc.mpr hif) hr
  · exfalso
    apply hw
    simp only [List.length_cons, List.length_append, List.length_nil]
    omega
  · constructor
    · intro _
      exact hc.mp (not_ne_iff.mp hr)
    · intro _
      exact ⟨_, rfl⟩

/-- When the checks pass and the series starts in walking state, the zipped
boundary pairs are exactly the block decomposition of the series. -/
theorem intervalPairs_eq_blocks (wc c0 : ℤ) (rest : List ℤ)
    (rp wp : List (ℕ × ℕ))
    (hok : intervalPairs wc (c0 :: rest) = .ok (rp, wp)) (h0 : c0 ≤ wc) :
    rp = truePairs (blocksZ wc 0 1 false rest)
      ∧ wp = falsePairs (blocksZ wc 0 1 false rest) := by
  have hlast : rest.getLastD c0 ≤ wc :=
    ((intervalPairs_ok_iff wc c0 rest).mp ⟨(rp, wp), hok⟩).mp h0
  have hst0 : stOf wc c0 = false := decide_eq_false (not_lt.mpr h0)
  have hstl : stOf wc (rest.getLastD c0) = false :=
    decide_eq_false (not_lt.mpr hlast)
  have hs := (segScan_blocks wc rest 1 0 c0 hstl).2 hst0
  have hr : ¬((segScan wc 1 c0 rest).1.length ≠ (segScan wc 1 c0 rest).2.1.length) :=
    not_ne_iff.mpr ((checks_iff wc c0 rest).mpr (iff_of_true h0 hlast))
  have hlens := segScan_lens wc rest 1 c0
  have hw : ¬((0 :: (segScan wc 1 c0 rest).2.2.1).length
      ≠ ((segScan wc 1 c0 rest).2.2.2 ++ [rest.length]).length) := by
    simp only [List.length_cons, List.length_append, List.length_nil]
    omega
  simp only [intervalPairs] at hok
  rw [if_neg hr, if_neg hw] at hok
  simp only [Except.ok.injEq, Prod.mk.injEq] at hok
  obtain ⟨h1, h2⟩ := hok
  have hs2 := hs.2
  rw [Nat.add_sub_cancel_left] at hs2
  exact ⟨h1 ▸ hs.1, h2 ▸ hs2⟩

/-- Closed form of the zero pass: each output cell is the last input cell at
or before its index that is not the zero sentinel, the carry when the whole
prefix is zeros. -/
theorem zeroPass_getD :
    ∀ (xs : List Cell) (c : Cell) (i : ℕ), i < xs.length →
      (zeroPass c xs).getD i none
        = ((xs.take (i + 1)).filter (fun y => decide (y ≠ some 0))).getLast?.getD c := by
  intro xs
  induction xs with
  | nil =>
    intro c i h
    exact absurd h (by simp)
  | cons x t ih =>
    intro c i h
    by_cases hx : x = some 0
    · subst hx
      cases i with
      | zero =>
        simp [zeroPass, List.take_succ_cons, List.filter_cons]
      | succ j =>
        have hj : j < t.length := by
          simpa using h
        have := ih c j hj
        simp only [zeroPass, if_pos rfl, List.getD_cons_succ, List.take_succ_cons,
                   List.filter_cons]
        simpa using this
    · cases i with
      | zero =>
        simp [zeroPass, hx, List.take_succ_cons, List.filter_cons]
      | succ j =>
        have hj : j < t.length := by
          simpa using h
        have := ih x j hj
        simp only [zeroPass, if_neg hx, List.getD_cons_succ, List.take_succ_cons,
                   List.filter_cons]
        rw [if_pos (by simpa using hx)]
        rw [List.getLast?_cons]
        simp only [Option.getD_some]
        exact this

/-- Closed form of the NaN pass: each output cell is the last non-NaN input
cell at or before its index, the carry when the whole prefix is NaN. -/
theorem nanPass_getD :
    ∀ (xs : List Cell) (c : Cell) (i : ℕ), i < xs.length →
      (nanPass c xs).getD i none
        = ((xs.take (i + 1)).filter (fun y => decide (y ≠ none))).getLast?.getD c := by
  intro xs
  induction xs with
  | nil =>
    intro c i h
    exact absurd h (by simp)
  | cons x t ih =>
    intro c i h
    cases x with
    | none =>
      cases i with
      | zero =>
        simp [nanPass, List.take_succ_cons, List.filter_cons]
      | succ j =>
        have hj : j < t.length := by
          simpa using h
        have := ih c j hj
        simp only [nanPass, List.getD_cons_succ, List.take_succ_cons, List.filter_cons]
        simpa using this
    | some v =>
      cases i with
      | zero =>
        simp [nanPass, List.take_succ_cons, List.filter_cons]
      | succ j =>
        have hj : j < t.length := by
          simpa using h
        have := ih (some v) j hj
        simp only [nanPass, List.getD_cons_succ, List.take_succ_cons, List.filter_cons]
        rw [if_pos (by simp)]
        rw [List.getLast?_cons]
        simp only [Option.getD_some]
        exact this

theorem zeroPass_length (c : Cell) : ∀ (xs : List Cell), (zeroPass c xs).length = xs.length := by
  intro xs
  induction xs generalizing c with
  | nil => rfl
  | cons x t ih => simp [zeroPass, ih]

theorem nanPass_length (c : Cell) : ∀ (xs : List Cell), (nanPass c xs).length = xs.length := by
  intro xs
  induction xs generalizing c with
  | nil => rfl
  | cons x t ih => simp [nanPass, ih]

theorem cleanColumn_length (xs : List Cell) : (cleanColumn xs).length = xs.length := by
  rw [cleanColumn, nanPass_length, zeroPass_length]

/-- Zeros appear in a list only as a leading run. -/
def zerosLead (l : List Cell) : Prop :=
  ∃ k rest, l = List.replicate k (some 0) ++ rest ∧ some 0 ∉ rest

/-- NaNs appear in a list only as a leading run. -/
def nonesLead (l : List Cell) : Prop :=
  ∃ k rest, l = List.replicate k (none : Cell) ++ rest ∧ (none : Cell) ∉ rest

theorem zerosLead_cons_zero {l : List Cell} (h : zerosLead l) :
    zerosLead (some 0 :: l) := by
  obtain ⟨k, rest, hl, hr⟩ := h
  exact ⟨k + 1, rest, by simp [hl, List.replicate_succ], hr⟩

theorem zerosLead_of_not_mem {l : List Cell} (h : some 0 ∉ l) : zerosLead l :=
  ⟨0, l, by simp, h⟩

theorem zerosLead_replicate_append {l : List Cell} (k : ℕ) (h : zerosLead l) :
    zerosLead (List.replicate k (some 0) ++ l) := by
  induction k with
  | zero => simpa using h
  | succ j ih => simpa [List.replicate_succ] using zerosLead_cons_zero ih

/-- A list without the zero sentinel passes through the zero pass unchanged,
whatever the carry. -/
theorem zeroPass_id_of_no_zero :
    ∀ (l : List Cell) (c : Cell), some 0 ∉ l → zeroPass c l = l := by
  intro l
  induction l with
  | nil => intro c _; rfl
  | cons x t ih =>
    intro c h
    have hx : x ≠ some 0 := fun hx => h (hx ▸ List.mem_cons_self x t)
    have ht : some 0 ∉ t := fun ht => h (List.mem_cons_of_mem x ht)
    simp [zeroPass, hx, ih x ht]

/-- With a non-zero carry, the zero pass never outputs the zero sentinel (it
fills zeros with the carry, which stays non-zero). -/
theorem zeroPass_no_zero_of_carry :
    ∀ (l : List Cell) (c : Cell), c ≠ some 0 → some 0 ∉ zeroPass c l := by
  intro l
  induction l with
  | nil => intro c _; simp [zeroPass]
  | cons x t ih =>
    intro c hc
    by_cases hx : x = some 0
    · subst hx
      simp only [zeroPass, if_pos rfl, List.mem_cons, not_or]
      exact ⟨fun h => hc h.symm, ih c hc⟩
    · simp only [zeroPass, if_neg hx, List.mem_cons, not_or]
      exact ⟨fun h => hx h.symm, ih x hx⟩

/-- A list without NaN passes through the NaN pass unchanged. -/
theorem nanPass_id_of_no_none :
    ∀ (l : List Cell) (c : Cell), (none : Cell) ∉ l → nanPass c l = l := by
  intro l
  induction l with
  | nil => intro c _; rfl
  | cons x t ih =>
    intro c h
    have ht : (none : Cell) ∉ t := fun ht => h (List.mem_cons_of_mem x ht)
    cases x with
    | none => exact absurd (List.mem_cons_self _ t) h
    | some v => simp [nanPass, ih (some v) ht]

/-- The initial zero pass leaves zeros only as a leading run. -/
theorem zeroPass_zerosLead : ∀ (xs : List Cell), zerosLead (zeroPass (some 0) xs) := by
  intro xs
  induction xs with
  | nil => exact ⟨0, [], by simp [zeroPass], by simp⟩
  | cons x t ih =>
    by_cases hx : x = some 0
    · subst hx
      simp only [zeroPass, if_pos rfl]
      exact zerosLead_cons_zero ih
    · cases x with
      | none =>
        simp only [zeroPass, if_neg hx]
        refine zerosLead_of_not_mem ?_
        simp only [List.mem_cons, not_or]
        exact ⟨fun h => hx h.symm, zeroPass_no_zero_of_carry t none (by simp)⟩
      | some v =>
        simp only [zeroPass, if_neg hx]
        refine zerosLead_of_not_mem ?_
        simp only [List.mem_cons, not_or]
        exact ⟨fun h => hx h.symm, zeroPass_no_zero_of_carry t (some v) hx⟩

/-- With a non-NaN carry the NaN pass never outputs NaN. -/
theorem nanPass_no_none_of_carry :
    ∀ (l : List Cell) (v : ℚ), (none : Cell) ∉ nanPass (some v) l := by
  intro l
  induction l with
  | nil => intro v; simp [nanPass]
  | cons x t ih =>
    intro v
    cases x with
    | none =>
      simp only [nanPass, List.mem_cons, not_or]
      exact ⟨fun h => Option.noConfusion h, ih v⟩
    | some w =>
      simp only [nanPass, List.mem_cons, not_or]
      exact ⟨fun h => Option.noConfusion h, ih w⟩

/-- The NaN pass leaves NaNs only as a leading run. -/
theorem nanPass_nonesLead : ∀ (xs : List Cell), nonesLead (nanPass none xs) := by
  intro xs
  induction xs with
  | nil => exact ⟨0, [], by simp [nanPass], by simp⟩
  | cons x t ih =>
    cases x with
    | none =>
      simp only [nanPass]
      obtain ⟨k, rest, hl, hr⟩ := ih
      exact ⟨k + 1, rest, by simp [hl, List.replicate_succ], hr⟩
    | some v =>
      simp only [nanPass]
      exact ⟨0, some v :: nanPass (some v) t,
             by simp,
             by simp only [List.mem_cons, not_or]
                exact ⟨fun h => Option.noConfusion h, nanPass_no_none_of_carry t v⟩⟩

/-- If neither the carry nor the list holds the zero sentinel, the NaN pass
output holds none either. -/
theorem nanPass_no_zero_of_carry :
    ∀ (l : List Cell) (c : Cell), some 0 ∉ l → c ≠ some 0 →
      some 0 ∉ nanPass c l := by
  intro l
  induction l with
  | nil => intro c _ _; simp [nanPass]
  | cons x t ih =>
    intro c h hc
    have ht : some 0 ∉ t := fun ht => h (List.mem_cons_of_mem x ht)
    have hx : x ≠ some 0 := fun hx => h (hx ▸ List.mem_cons_self x t)
    cases x with
    | none =>
      simp only [nanPass, List.mem_cons, not_or]
      exact ⟨fun hh => hc hh.symm, ih c ht hc⟩
    | some v =>
      simp only [nanPass, List.mem_cons, not_or]
      exact ⟨fun hh => hx hh.symm, ih (some v) ht hx⟩

/-- While the carry is the zero sentinel and the list holds no zero cell,
the NaN pass output has zeros only as a leading run. -/
theorem nanPass_zerosLead_of_zero_carry :
    ∀ (l : List Cell), some 0 ∉ l → zerosLead (nanPass (some 0) l) := by
  intro l
  induction l with
  | nil => intro _; exact ⟨0, [], by simp [nanPass], by simp⟩
  | cons x t ih =>
    intro h
    have ht : some 0 ∉ t := fun ht => h (List.mem_cons_of_mem x ht)
    have hx : x ≠ some 0 := fun hx => h (hx ▸ List.mem_cons_self x t)
    cases x with
    | none =>
      simp only [nanPass]
      exact zerosLead_cons_zero (ih ht)
    | some v =>
      simp only [nanPass]
      refine zerosLead_of_not_mem ?_
      simp only [List.mem_cons, not_or]
      exact ⟨fun hh => hx hh.symm, nanPass_no_zero_of_carry t (some v) ht hx⟩

/-- The NaN pass over a leading (non-empty) run of zeros keeps them and
continues with a zero carry, whatever the initial carry. -/
theorem nanPass_replicate_zero :
    ∀ (k : ℕ) (rest : List Cell) (c : Cell),
      nanPass c (List.replicate (k + 1) (some 0) ++ rest)
        = List.replicate (k + 1) (some 0) ++ nanPass (some 0) rest := by
  intro k
  induction k with
  | zero =>
    intro rest c
    simp [nanPass, List.replicate_succ]
  | succ j ih =>
    intro rest c
    have := ih rest (some 0)
    simp only [List.replicate_succ, List.cons_append, nanPass] at this ⊢
    rw [this]

/-- The full imputation output has zeros only as a leading run. -/
theorem cleanColumn_zerosLead (xs : List Cell) : zerosLead (cleanColumn xs) := by
  rw [cleanColumn]
  obtain ⟨k, rest, hl, hr⟩ := zeroPass_zerosLead xs
  rw [hl]
  cases k with
  | zero =>
    simp only [List.replicate, List.nil_append]
    exact zerosLead_of_not_mem (nanPass_no_zero_of_carry rest none hr (by simp))
  | succ j =>
    rw [nanPass_replicate_zero j rest none]
    exact zerosLead_replicate_append (j + 1) (nanPass_zerosLead_of_zero_carry rest hr)

theorem zeroPass_replicate_zero :
    ∀ (k : ℕ) (rest : List Cell),
      zeroPass (some 0) (List.replicate k (some 0) ++ rest)
        = List.replicate k (some 0) ++ zeroPass (some 0) rest := by
  intro k
  induction k with
  | zero => intro rest; simp
  | succ j ih =>
    intro rest
    simp [List.replicate_succ, List.cons_append, zeroPass, ih rest]

theorem nanPass_none_replicate :
    ∀ (k : ℕ) (rest : List Cell),
      nanPass none (List.replicate k (none : Cell) ++ rest)
        = List.replicate k (none : Cell) ++ nanPass none rest := by
  intro k
  induction k with
  | zero => intro rest; simp
  | succ j ih =>
    intro rest
    simp [List.replicate_succ, List.cons_append, nanPass, ih rest]

/-- The per-column imputation is idempotent. -/
theorem cleanColumn_idem (xs : List Cell) :
    cleanColumn (cleanColumn xs) = cleanColumn xs := by
  have h1 : zeroPass (some 0) (cleanColumn xs) = cleanColumn xs := by
    obtain ⟨k, rest, hl, hr⟩ := cleanColumn_zerosLead xs
    rw [hl, zeroPass_replicate_zero, zeroPass_id_of_no_zero rest (some 0) hr]
  have h2 : nanPass none (cleanColumn xs) = cleanColumn xs := by
    obtain ⟨k2, rest2, hl2, hr2⟩ := nanPass_nonesLead (zeroPass (some 0) xs)
    rw [cleanColumn, hl2, nanPass_none_replicate,
        nanPass_id_of_no_none rest2 none hr2]
  conv_lhs => rw [cleanColumn]
  rw [h1, h2]

theorem mapE_length :
    ∀ (l : List TVal) (g : TVal → Except PErr TVal) (ys : List TVal),
      mapE l g = .ok ys → ys.length = l.length := by
  intro l g
  induction l with
  | nil =>
    intro ys h
    simp only [mapE, Except.ok.injEq] at h
    rw [← h]
  | cons x t ih =>
    intro ys h
    simp only [mapE] at h
    cases hgx : g x with
    | error e =>
      rw [hgx] at h
      exact Except.noConfusion h
    | ok y =>
      rw [hgx] at h
      cases hm : mapE t g with
      | error e =>
        rw [hm] at h
        exact Except.noConfusion h
      | ok ys' =>
        rw [hm] at h
        simp only [Except.ok.injEq] at h
        rw [← h]
        simp [ih ys' hm]

theorem mapE_timeSub_secs :
    ∀ (l : List TVal) (t0 : TVal) (ys : List TVal),
      mapE l (timeSub t0) = .ok ys → ∀ y ∈ ys, ∃ q, y = .secs q := by
  intro l t0
  induction l with
  | nil =>
    intro ys h y hy
    simp only [mapE, Except.ok.injEq] at h
    rw [← h] at hy
    exact absurd hy (by simp)
  | cons x t ih =>
    intro ys h y hy
    simp only [mapE] at h
    cases hgx : timeSub t0 x with
    | error e =>
      rw [hgx] at h
      exact Except.noConfusion h
    | ok z =>
      rw [hgx] at h
      cases hm : mapE t (timeSub t0) with
      | error e =>
        rw [hm] at h
        exact Except.noConfusion h
      | ok ys' =>
        rw [hm] at h
        simp only [Except.ok.injEq] at h
        rw [← h] at hy
        rcases List.mem_cons.mp hy with hy | hy
        · subst hy
          cases x <;> cases t0 <;>
            simp only [timeSub, Except.ok.injEq] at hgx <;>
            first
              | exact Except.noConfusion hgx
              | exact hgx.elim
              | exact ⟨_, hgx.symm⟩
        · exact ih ys' hm y hy

/-- A successfully cleaned frame cannot be cleaned again: its time column now
holds floats, and `.total_seconds()` raises on the very first of them. -/
theorem clean_twice_fails (f g : RawFrame) (h : clean f = .ok g) :
    clean g = .error .typeError := by
  cases hft : f.time with
  | nil => simp [clean, hft] at h
  | cons t0 ts =>
    simp only [clean, hft] at h
    cases hm : mapE (t0 :: ts) (timeSub t0) with
    | error e =>
      rw [hm] at h
      exact Except.noConfusion h
    | ok ys =>
      rw [hm] at h
      simp only [Except.ok.injEq] at h
      have hgt : g.time = ys := by rw [← h]
      have hlen : ys.length = ts.length + 1 := by
        simpa using mapE_length _ _ _ hm
      cases hys : ys with
      | nil =>
        rw [hys] at hlen
        simp at hlen
      | cons y0 ys' =>
        have hy0 : y0 ∈ ys := hys ▸ List.mem_cons_self y0 ys'
        obtain ⟨q, hq⟩ := mapE_timeSub_secs _ t0 _ hm y0 hy0
        rw [hys] at hgt
        subst hq
        simp [clean, hgt, mapE, timeSub]

/-- `Int.fdiv _ 2` agrees with Euclidean division by 2, which `omega`
understands. -/
theorem halfRound_eq (s : ℤ) :
    halfRound s
      = if s % 2 = 0 then s / 2
        else if s / 2 % 2 = 0 then s / 2 else s / 2 + 1 := by
  unfold halfRound
  rw [Int.fdiv_eq_ediv s (by norm_num)]

/-- Banker's rounding of `s / 2` commutes with adding an integer `c` as long
as no tie parity flip can occur: `s` even (no tie at all) or `c` even (the
tie resolves the same way on both sides). -/
theorem halfRound_shift (s c : ℤ) (h : 2 ∣ s ∨ 2 ∣ c) :
    halfRound (s + 2 * c) = halfRound s + c := by
  rw [halfRound_eq, halfRound_eq]
  split_ifs <;> omega

/-- Filtering a shifted list equals shifting a filtered list when the
predicates agree pointwise on the original elements. -/
theorem filter_map_shift (c : ℤ) :
    ∀ (l : List ℤ) (p q : ℤ → Bool), (∀ x ∈ l, p (x + c) = q x) →
      (l.map (fun x => x + c)).filter p = (l.filter q).map (fun x => x + c) := by
  intro l
  induction l with
  | nil => intro p q _; rfl
  | cons x t ih =>
    intro p q hpq
    have hx := hpq x (List.mem_cons_self x t)
    have ht : ∀ y ∈ t, p (y + c) = q y :=
      fun y hy => hpq y (List.mem_cons_of_mem x hy)
    simp only [List.map_cons, List.filter_cons, hx]
    cases hq : q x with
    | false => simpa [hq] using ih p q ht
    | true => simpa [hq] using ih p q ht

theorem filtered80_map_add (c : ℤ) (cad : List ℤ)
    (hfloor : ∀ x ∈ cad, (80 < x ↔ 80 < x + c)) :
    filtered80 (cad.map (fun x => x + c))
      = (filtered80 cad).map (fun x => x + c) := by
  refine filter_map_shift c cad _ _ (fun x hx => ?_)
  by_cases h : 80 < x
  · rw [decide_eq_true ((hfloor x hx).mp h), decide_eq_true h]
  · rw [decide_eq_false (fun hc => h ((hfloor x hx).mpr hc)), decide_eq_false h]

/-- Translation property of the threshold estimator: if no cadence value
moves across the 80 floor and the banker tie (odd `min + max`) cannot flip
(even `c`), the whole estimator commutes with adding `c`. -/
theorem walkCadence_shift (cad : List ℤ) (c : ℤ)
    (hfloor : ∀ x ∈ cad, (80 < x ↔ 80 < x + c))
    (hpar : 2 ∣ ((filtered80 cad).min?.getD 0 + (filtered80 cad).max?.getD 0)
            ∨ 2 ∣ c) :
    walkCadence (cad.map (fun x => x + c))
      = (walkCadence cad).map (fun x => x + c) := by
  have hfilt := filtered80_map_add c cad hfloor
  cases hf : filtered80 cad with
  | nil =>
    rw [hf] at hfilt
    simp only [walkCadence, hfilt, hf, List.map_nil]
    rfl
  | cons f0 fs =>
    have hm : ∃ m, (filtered80 cad).min? = some m := by
      rw [hf]
      exact ⟨_, List.min?_cons⟩
    have hM : ∃ M, (filtered80 cad).max? = some M := by
      rw [hf]
      exact ⟨_, List.max?_cons⟩
    obtain ⟨m, hm⟩ := hm
    obtain ⟨M, hM⟩ := hM
    have havg : avgCadence (cad.map (fun x => x + c)) = avgCadence cad + c := by
      rw [avgCadence, avgCadence, hfilt, min?_map_add, max?_map_add, hm, hM]
      simp only [Option.map_some', Option.getD_some]
      rw [show m + c + (M + c) = m + M + 2 * c by ring]
      refine halfRound_shift (m + M) c ?_
      rw [hm, hM] at hpar
      simpa using hpar
    have hcand : candidatesOf (cad.map (fun x => x + c))
        = (candidatesOf cad).map (fun x => x + c) := by
      rw [candidatesOf, candidatesOf, hfilt, havg]
      refine filter_map_shift c (filtered80 cad) _ _ (fun x hx => ?_)
      have hx80 : 80 < x := by
        simpa using (List.mem_filter.mp hx).2
      have hxc : 80 < x + c := (hfloor x (List.mem_filter.mp hx).1).mp hx80
      by_cases hlt : x < avgCadence cad
      · rw [decide_eq_true (⟨by omega, by omega⟩ : 0 < x + c ∧ x + c < avgCadence cad + c),
            decide_eq_true (⟨by omega, hlt⟩ : 0 < x ∧ x < avgCadence cad)]
      · rw [decide_eq_false (fun hh => hlt (by omega)),
            decide_eq_false (fun hh => hlt hh.2)]
    simp only [walkCadence, hfilt, hf, List.map_cons]
    rw [hcand, max?_map_add]
    cases hmax : (candidatesOf cad).max? with
    | none => rfl
    | some w => rfl

/-! Claim theorems. -/

/-- C4: whenever the Threshold Estimator succeeds (the filtered set of
cadences above 80 is non-empty and contains a value strictly below
`avg_cadence`), the returned `walk_cadence` is an element of the filtered
set, is strictly below `avg_cadence`, is numerically closest to
`avg_cadence` among such elements (the comparator `avg - x` is minimized),
and the tie rule (the smaller value) holds. -/
theorem C4_threshold (cad : List ℤ) (w : ℤ)
    (h : walkCadence cad = .ok w) :
    w ∈ filtered80 cad ∧ w < avgCadence cad
      ∧ (∀ x ∈ filtered80 cad, x < avgCadence cad →
          avgCadence cad - w ≤ avgCadence cad - x)
      ∧ (∀ x ∈ filtered80 cad, x < avgCadence cad →
          avgCadence cad - x = avgCadence cad - w → w ≤ x) := by
  by_cases hf : filtered80 cad = []
  · rw [walkCadence, hf] at h
    exact Except.noConfusion h
  · obtain ⟨f0, fs, hf2⟩ := List.exists_cons_of_ne_nil hf
    rw [walkCadence, hf2] at h
    cases hmax : (candidatesOf cad).max? with
    | none =>
      rw [hmax] at h
      exact Except.noConfusion h
    | some w' =>
      rw [hmax] at h
      simp only [Except.ok.injEq] at h
      subst h
      obtain ⟨hmem, hub⟩ := max?_spec hmax
      have hw : w' ∈ filtered80 cad ∧ 0 < w' ∧ w' < avgCadence cad := by
        have := List.mem_filter.mp hmem
        exact ⟨this.1, by simpa using this.2⟩
      refine ⟨hw.1, hw.2.2, fun x hx hlt => ?_, fun x hx hlt heq => ?_⟩
      · have hx0 : (0:ℤ) < x := by
          have := List.mem_filter.mp hx
          have h80 : (80:ℤ) < x := by simpa using this.2
          omega
        have hxc : x ∈ candidatesOf cad :=
          List.mem_filter.mpr ⟨hx, by simpa using ⟨hx0, hlt⟩⟩
        have := hub x hxc
        omega
      · omega

/-- C10: the Threshold Estimator raises `InsufficientDataError` exactly when
the filtered set of cadences above 80 is empty or contains no value below
`avg_cadence`; every error it raises is of that kind, and in every other
case it returns a threshold. -/
theorem C10_insufficient (cad : List ℤ) :
    (walkCadence cad = .error .insufficientData
      ↔ (filtered80 cad = [] ∨ ∀ x ∈ filtered80 cad, avgCadence cad ≤ x))
    ∧ (∀ e, walkCadence cad = .error e → e = .insufficientData)
    ∧ (¬(filtered80 cad = [] ∨ ∀ x ∈ filtered80 cad, avgCadence cad ≤ x) →
        ∃ w, walkCadence cad = .ok w) := by
  by_cases hf : filtered80 cad = []
  · have hwc : walkCadence cad = .error .insufficientData := by
      rw [walkCadence, hf]
    rw [hwc]
    refine ⟨iff_of_true rfl (Or.inl hf), fun e he => ?_, fun hcon => ?_⟩
    · simpa using he.symm
    · exact absurd (Or.inl hf) hcon
  · obtain ⟨f0, fs, hf2⟩ := List.exists_cons_of_ne_nil hf
    cases hmax : (candidatesOf cad).max? with
    | none =>
      have hwc : walkCadence cad = .error .insufficientData := by
        rw [walkCadence, hf2, hmax]
      have hempty : candidatesOf cad = [] := List.max?_eq_none_iff.mp hmax
      have hall : ∀ x ∈ filtered80 cad, avgCadence cad ≤ x := by
        intro x hx
        have hnot := List.filter_eq_nil_iff.mp hempty x hx
        have h80 : (80:ℤ) < x := by
          simpa using (List.mem_filter.mp hx).2
        simp only [decide_eq_true_eq, not_and, not_lt] at hnot
        exact hnot (by omega)
      rw [hwc]
      refine ⟨iff_of_true rfl (Or.inr hall), fun e he => ?_, fun hcon => ?_⟩
      · simpa using he.symm
      · exact absurd (Or.inr hall) hcon
    | some w =>
      have hwc : walkCadence cad = .ok w := by
        rw [walkCadence, hf2, hmax]
      obtain ⟨hmem, _⟩ := max?_spec hmax
      have hw := List.mem_filter.mp hmem
      have hwlt : w < avgCadence cad := by
        have := hw.2
        simp only [decide_eq_true_eq] at this
        exact this.2
      have hnot : ¬(filtered80 cad = [] ∨ ∀ x ∈ filtered80 cad, avgCadence cad ≤ x) := by
        rintro (hnil | hall)
        · exact hf hnil
        · exact absurd (hall w hw.1) (not_le.mpr hwlt)
      rw [hwc]
      exact ⟨iff_of_false (fun he => Except.noConfusion he) hnot,
             fun e he => Except.noConfusion he,
             fun _ => ⟨w, rfl⟩⟩

/-- C10 witness: the all-zero cadence series fails with
`InsufficientDataError`, and a mixed series succeeds. -/
theorem C10_insufficient_witness :
    walkCadence [0, 0, 0] = .error .insufficientData
      ∧ ∃ w, walkCadence [70, 100, 160] = .ok w :=
  ⟨(C10_insufficient [0, 0, 0]).1.mpr (Or.inl (by decide)),
   (C10_insufficient [70, 100, 160]).2.2 (by decide)⟩

/-- C4 witness: on the series `[70, 100, 160]` the estimator returns `100`,
which is in the filtered set `[100, 160]` and is the closest value below
`avg_cadence = 130`. -/
theorem C4_threshold_witness :
    walkCadence [70, 100, 160] = .ok 100
      ∧ ((100:ℤ) ∈ filtered80 [70, 100, 160] ∧ (100:ℤ) < avgCadence [70, 100, 160]
          ∧ (∀ x ∈ filtered80 [70, 100, 160], x < avgCadence [70, 100, 160] →
              avgCadence [70, 100, 160] - 100 ≤ avgCadence [70, 100, 160] - x)
          ∧ (∀ x ∈ filtered80 [70, 100, 160], x < avgCadence [70, 100, 160] →
              avgCadence [70, 100, 160] - x = avgCadence [70, 100, 160] - 100 →
                (100:ℤ) ≤ x)) :=
  ⟨by decide, C4_threshold [70, 100, 160] 100 (by decide)⟩

theorem getLastD_eq_getD_length (l : List ℤ) (c : ℤ) :
    l.getLastD c = (c :: l).getD l.length 0 := by
  induction l generalizing c with
  | nil => rfl
  | cons x t ih =>
    rw [List.getLastD_cons, ih x]
    simp [List.getD_cons_succ]

/-- C2 counterexample: on the cleaned series with cadences `[70, 100, 160]`
the estimator yields `walk_cadence = 100`, the series ends above the
threshold, and `extract_running_intervals` raises the run-count
`ValueError` — the `SegmentationInconsistencyError` branch is reachable. -/
theorem C2_checks_cex :
    walkCadence frameEndsRun.cadence = .ok 100
      ∧ extract frameEndsRun = .error .segInconsistencyRun := by
  constructor
  · decide
  · decide

/-- C2 amended: the two consistency checks pass (no
`SegmentationInconsistencyError`) exactly when the first and the last
samples lie on the same side of the threshold; a series that ends on the
other side of the threshold from its start reaches the raise. -/
theorem C2_checks (wc c : ℤ) (rest : List ℤ) :
    (∃ pr, intervalPairs wc (c :: rest) = .ok pr)
      ↔ ((c ≤ wc) ↔ (rest.getLastD c ≤ wc)) :=
  intervalPairs_ok_iff wc c rest

/-- C3 counterexample: the cleaned series with cadences `[70, 70, 100, 160]`
has exactly one threshold crossing (`walk_cadence = 100`; samples 0-2 at or
below it, sample 3 above), yet the Segmentation Engine raises the run-count
`ValueError` instead of emitting one Walk and one Run interval. -/
theorem C3_singleCross_cex :
    walkCadence frameSingleCross.cadence = .ok 100
      ∧ (∀ i < 3, frameSingleCross.cadence.getD i 0 ≤ 100)
      ∧ (∀ i, 3 ≤ i → i < 4 → 100 < frameSingleCross.cadence.getD i 0)
      ∧ extract frameSingleCross = .error .segInconsistencyRun := by
  refine ⟨by decide, by decide, by decide, by decide⟩

/-- C3 amended: on every cleaned series with exactly one threshold crossing
(a walking prefix, then a running suffix, no return), the Segmentation
Engine does not succeed: it raises the run-count
`SegmentationInconsistencyError`, because the final open running segment is
never closed. -/
theorem C3_singleCross (f : Frame) (wc : ℤ) (k : ℕ)
    (hwc : walkCadence f.cadence = .ok wc)
    (hk0 : 0 < k) (hkN : k < f.cadence.length)
    (hpre : ∀ i < k, f.cadence.getD i 0 ≤ wc)
    (hsuf : ∀ i, k ≤ i → i < f.cadence.length → wc < f.cadence.getD i 0) :
    extract f = .error .segInconsistencyRun := by
  cases hc : f.cadence with
  | nil =>
    rw [hc] at hkN
    simp at hkN
  | cons c0 rest =>
    rw [hc] at hwc
    have h0 : c0 ≤ wc := by
      have := hpre 0 hk0
      rwa [hc, List.getD_cons_zero] at this
    have hlast : wc < rest.getLastD c0 := by
      have hN : f.cadence.length = rest.length + 1 := by
        rw [hc]
        rfl
      have hs := hsuf rest.length (by omega) (by omega)
      rw [hc] at hs
      rwa [← getLastD_eq_getD_length rest c0] at hs
    have hne : (segScan wc 1 c0 rest).1.length
        ≠ (segScan wc 1 c0 rest).2.1.length := by
      intro heq
      exact absurd (((checks_iff wc c0 rest).mp heq).mp h0) (not_le.mpr hlast)
    simp only [extract, hc, hwc, intervalPairs]
    rw [if_pos hne]

/-- C3 witness: the amended statement applied to the concrete
single-crossing series `[70, 70, 100, 160]`. -/
theorem C3_singleCross_witness :
    extract frameSingleCross = .error .segInconsistencyRun :=
  C3_singleCross frameSingleCross 100 3 (by decide) (by decide) (by decide)
    (by decide) (by decide)

/-- C5 counterexample: on the column `[0, 5]` the source leaves the leading
zero in place (no back-fill, no error), while the spec's description fills
it from the subsequent value. -/
theorem C5_imputation_cex :
    cleanColumn [some 0, some 5] = [some 0, some 5]
      ∧ cleanColumnSpecModel [some 0, some 5] = [some 5, some 5]
      ∧ cleanColumn [some 0, some 5] ≠ cleanColumnSpecModel [some 0, some 5] :=
  ⟨by decide, by decide, by decide⟩

/-- C5 amended: the Imputation Stage is forward-only.  Each cleaned cell is
the last non-NaN cell, at or before its index, of the zero-filled column;
each zero-filled cell is the last input cell at or before its index that is
not the zero sentinel.  A zero or missing value with no preceding resolved
value remains unchanged (the `getD` defaults), and no error is raised. -/
theorem C5_imputation (xs : List Cell) (i : ℕ) (h : i < xs.length) :
    (cleanColumn xs).getD i none
      = (((zeroPass (some 0) xs).take (i + 1)).filter
          (fun y => decide (y ≠ none))).getLast?.getD none
    ∧ (zeroPass (some 0) xs).getD i none
      = ((xs.take (i + 1)).filter
          (fun y => decide (y ≠ some 0))).getLast?.getD (some 0) := by
  constructor
  · rw [cleanColumn]
    refine nanPass_getD _ none i ?_
    rw [zeroPass_length]
    exact h
  · exact zeroPass_getD xs (some 0) i h

/-- C5 witness: the amended characterization evaluated on `[0, NaN, 5]` at
index 1. -/
theorem C5_imputation_witness :
    (1 < ([some 0, none, some 5] : List Cell).length)
      ∧ ((cleanColumn [some 0, none, some 5]).getD 1 none
          = (((zeroPass (some 0) [some 0, none, some 5]).take 2).filter
              (fun y => decide (y ≠ none))).getLast?.getD none
        ∧ (zeroPass (some 0) [some 0, none, some 5]).getD 1 none
          = ((([some 0, none, some 5] : List Cell).take 2).filter
              (fun y => decide (y ≠ some 0))).getLast?.getD (some 0)) :=
  ⟨by decide, C5_imputation [some 0, none, some 5] 1 (by decide)⟩

/-- C8 counterexample: cleaning the two-sample raw frame succeeds, but
cleaning the already-cleaned frame raises (`.total_seconds()` on a float)
instead of returning it unchanged. -/
theorem C8_idem_cex :
    clean rawDemo = .ok cleanedDemo
      ∧ clean cleanedDemo = .error .typeError := by
  constructor
  · simp [clean, rawDemo, cleanedDemo, mapE, timeSub, cleanColumn, zeroPass,
          nanPass, paceOf]
  · simp [clean, cleanedDemo, mapE, timeSub]

/-- C8 amended: `clean_garmin_tcx_data` is not idempotent — a second
application to any successfully cleaned frame always fails with the
time-normalization `TypeError` — although the imputation fill itself is
idempotent per column. -/
theorem C8_idem :
    (∀ f g : RawFrame, clean f = .ok g → clean g = .error .typeError)
      ∧ ∀ xs : List Cell, cleanColumn (cleanColumn xs) = cleanColumn xs :=
  ⟨clean_twice_fails, cleanColumn_idem⟩

/-- C8 witness: the amended failure statement applied to the concrete
two-sample frame. -/
theorem C8_idem_witness : clean cleanedDemo = .error .typeError :=
  C8_idem.1 rawDemo cleanedDemo
    (by simp [clean, rawDemo, cleanedDemo, mapE, timeSub, cleanColumn,
              zeroPass, nanPass, paceOf])

/-- C9 counterexample: on the series `[100, 130, 161]` (all above the 80
floor, so the filtered set shifts pointwise) adding `c = 1` moves
`walk_cadence` from `100` to `131`, not to `101`: banker rounding of the
odd `min + max` flips with the parity of the shift. -/
theorem C9_shift_cex :
    walkCadence [100, 130, 161] = .ok 100
      ∧ walkCadence ([100, 130, 161].map (fun x => x + 1)) = .ok 131
      ∧ walkCadence ([100, 130, 161].map (fun x => x + 1))
          ≠ (walkCadence [100, 130, 161]).map (fun x => x + 1) :=
  ⟨by decide, by decide, by decide⟩

/-- C9 amended: the Threshold Estimator commutes with adding a constant `c`
to every cadence provided no cadence value crosses the 80 floor and the
banker tie cannot flip: `min + max` of the filtered set even (no tie) or
`c` even. -/
theorem C9_shift (cad : List ℤ) (c : ℤ)
    (hfloor : ∀ x ∈ cad, (80 < x ↔ 80 < x + c))
    (hpar : 2 ∣ ((filtered80 cad).min?.getD 0 + (filtered80 cad).max?.getD 0)
            ∨ 2 ∣ c) :
    walkCadence (cad.map (fun x => x + c))
      = (walkCadence cad).map (fun x => x + c) :=
  walkCadence_shift cad c hfloor hpar

/-- C9 witness: the amended statement applied to `[70, 100, 160]` with the
even shift `c = 2`. -/
theorem C9_shift_witness :
    (∀ x ∈ ([70, 100, 160] : List ℤ), (80 < x ↔ 80 < x + 2))
      ∧ walkCadence ([70, 100, 160].map (fun x => x + 2))
          = (walkCadence [70, 100, 160]).map (fun x => x + 2) :=
  ⟨by decide, C9_shift [70, 100, 160] 2 (by decide) (Or.inr (by decide))⟩

theorem countP_pairs_split (m : ℕ) :
    ∀ (B : List (ℕ × ℕ × Bool)),
      (truePairs B).countP (fun p => decide (p.1 ≤ m ∧ m ≤ p.2))
        + (falsePairs B).countP (fun p => decide (p.1 ≤ m ∧ m ≤ p.2))
        = B.countP (fun b => decide (b.1 ≤ m ∧ m ≤ b.2.1)) := by
  intro B
  induction B with
  | nil => rfl
  | cons b B ih =>
    obtain ⟨a, s, flag⟩ := b
    cases flag
    · rw [truePairs_cons_false, falsePairs_cons_false, List.countP_cons,
          List.countP_cons]
      dsimp only
      omega
    · rw [truePairs_cons_true, falsePairs_cons_true, List.countP_cons,
          List.countP_cons]
      dsimp only
      omega

/-- C1 counterexample: on the cleaned series with cadences
`[70, 100, 160, 70, 70]` the pipeline succeeds (threshold 100), but the
one-sample running segment `(2, 2)` is dropped as degenerate, so sample
index 2 lies in no emitted interval. -/
theorem C1_coverage_cex :
    walkCadence frameGap.cadence = .ok 100
      ∧ intervalPairs 100 frameGap.cadence = .ok ([(2, 2)], [(0, 1), (3, 4)])
      ∧ (extract frameGap).isOk = true
      ∧ ((([(2, 2)] : List (ℕ × ℕ)).filter (fun p => decide (p.1 ≠ p.2))
          ++ ([(0, 1), (3, 4)] : List (ℕ × ℕ)).filter
              (fun p => decide (p.1 ≠ p.2))).countP
            (fun p => decide (p.1 ≤ 2 ∧ 2 ≤ p.2))) = 0 :=
  ⟨by decide, by decide, by decide, by decide⟩

/-- C1 amended: when the Segmentation Engine succeeds, the first sample is
at or below the threshold, and no boundary pair is degenerate
(`start = stop`, which the Interval Aggregator would silently drop), every
sample index is covered by exactly one emitted interval. -/
theorem C1_coverage (f : Frame) (wc : ℤ) (rp wp : List (ℕ × ℕ))
    (_hwc : walkCadence f.cadence = .ok wc)
    (hok : intervalPairs wc f.cadence = .ok (rp, wp))
    (h0 : f.cadence.getD 0 0 ≤ wc)
    (hnd : ∀ p ∈ rp ++ wp, p.1 ≠ p.2) :
    ∀ m < f.cadence.length,
      ((rp.filter (fun p => decide (p.1 ≠ p.2))
        ++ wp.filter (fun p => decide (p.1 ≠ p.2))).countP
          (fun p => decide (p.1 ≤ m ∧ m ≤ p.2))) = 1 := by
  intro m hm
  cases hc : f.cadence with
  | nil =>
    rw [hc] at hok
    simp [intervalPairs] at hok
  | cons c0 rest =>
    rw [hc] at hok h0 hm
    rw [List.getD_cons_zero] at h0
    obtain ⟨hrp, hwp⟩ := intervalPairs_eq_blocks wc c0 rest rp wp hok h0
    have hfr : rp.filter (fun p => decide (p.1 ≠ p.2)) = rp :=
      List.filter_eq_self.mpr
        (fun p hp => decide_eq_true (hnd p (List.mem_append_left _ hp)))
    have hfw : wp.filter (fun p => decide (p.1 ≠ p.2)) = wp :=
      List.filter_eq_self.mpr
        (fun p hp => decide_eq_true (hnd p (List.mem_append_right _ hp)))
    rw [hfr, hfw, List.countP_append, hrp, hwp, countP_pairs_split]
    refine blocksZ_cover wc rest 0 1 false m (by omega) (by omega) ?_
    have : m < rest.length + 1 := by simpa using hm
    omega

/-- C1 witness: the amended coverage statement applied to the 10-sample
scenario series (threshold 158, no degenerate pair). -/
theorem C1_coverage_witness :
    (∀ p ∈ (([(3, 5)] : List (ℕ × ℕ)) ++ [(0, 2), (6, 9)]), p.1 ≠ p.2)
      ∧ ∀ m < frame6.cadence.length,
          ((([(3, 5)] : List (ℕ × ℕ)).filter (fun p => decide (p.1 ≠ p.2))
            ++ ([(0, 2), (6, 9)] : List (ℕ × ℕ)).filter
                (fun p => decide (p.1 ≠ p.2))).countP
              (fun p => decide (p.1 ≤ m ∧ m ≤ p.2))) = 1 :=
  ⟨by decide,
   C1_coverage frame6 158 [(3, 5)] [(0, 2), (6, 9)] (by decide) (by decide)
     (by decide) (by decide)⟩

/-- C6 counterexample: on the 10-sample scenario the code returns
`walk_cadence = 158` (not a value near 70), the run interval covers indices
`[3, 5]` (not `[3, 6]` — sample 6 has cadence `158 ≤ 158` and is walking),
the second walk interval covers `[6, 9]` (not `[7, 9]`), and the run
percentage is `28.6`, not approximately `40.0`. -/
theorem C6_scenario_cex :
    walkCadence frame6.cadence = .ok 158
      ∧ ¬((158 : ℤ) ≤ 90)
      ∧ intervalPairs 158 frame6.cadence = .ok ([(3, 5)], [(0, 2), (6, 9)])
      ∧ (3, 6) ∉ ([(3, 5)] : List (ℕ × ℕ))
      ∧ (extract frame6).map runPercentage = .ok (143 / 5)
      ∧ (143 / 5 : ℚ) ≠ 40 := by
  refine ⟨by decide, by decide, by decide, by decide, ?_, by norm_num⟩
  rw [extract_frame6]
  simp [Except.map, runPercentage, frame6Intervals, pyRoundTo, pyRound, round_eq]
  norm_num

/-- C6 amended: on the 10-sample scenario the pipeline returns
`walk_cadence = 158`, emits Walk over `[0, 2]`, Run over `[3, 5]` and Walk
over `[6, 9]`, and computes `run_percentage = 28.6`. -/
theorem C6_scenario :
    walkCadence frame6.cadence = .ok 158
      ∧ intervalPairs 158 frame6.cadence = .ok ([(3, 5)], [(0, 2), (6, 9)])
      ∧ extract frame6 = .ok frame6Intervals
      ∧ runPercentage frame6Intervals = 143 / 5 := by
  refine ⟨by decide, by decide, extract_frame6, ?_⟩
  simp [runPercentage, frame6Intervals, pyRoundTo, pyRound, round_eq]
  norm_num

/-- C7 counterexample: the cleaned series with cadences
`[150, 150, 90, 150, 150]` satisfies the data-model invariant (time
strictly increasing, distance non-decreasing), the pipeline succeeds
(threshold 90), and the aggregator emits a run interval of duration `-2`. -/
theorem C7_nonneg_cex :
    frameStartsRun.time.Pairwise (· < ·)
      ∧ frameStartsRun.distance.Pairwise (· ≤ ·)
      ∧ extract frameStartsRun = .ok frameStartsRunIntervals
      ∧ ∃ iv ∈ frameStartsRunIntervals, iv.duration < 0 := by
  refine ⟨by decide, by decide, ?_, ?_⟩
  · simp [extract, frameStartsRun, frameStartsRunIntervals, walkCadence,
          filtered80, candidatesOf, avgCadence, intervalPairs, segScan,
          mkInterval, show halfRound 240 = 120 from by decide]
    norm_num
  · exact ⟨_, List.mem_cons_self _ _, by decide⟩

/-- C7 amended: when additionally the first sample is at or below the
threshold, every interval emitted by the Interval Aggregator on a series
with strictly increasing time and non-decreasing distance has strictly
positive duration (zero-duration pairs are dropped, negative durations
cannot occur) and non-negative distance. -/
theorem C7_nonneg (f : Frame) (wc : ℤ) (ivs : List Interval)
    (hlt : f.time.length = f.cadence.length)
    (hld : f.distance.length = f.cadence.length)
    (hmt : f.time.Pairwise (· < ·))
    (hmd : f.distance.Pairwise (· ≤ ·))
    (hwc : walkCadence f.cadence = .ok wc)
    (h0 : f.cadence.getD 0 0 ≤ wc)
    (hex : extract f = .ok ivs) :
    ∀ iv ∈ ivs, 0 < iv.duration ∧ 0 ≤ iv.distance := by
  simp only [extract, hwc] at hex
  cases hip : intervalPairs wc f.cadence with
  | error e =>
    rw [hip] at hex
    exact Except.noConfusion hex
  | ok pr =>
    obtain ⟨rp, wp⟩ := pr
    rw [hip] at hex
    simp only [Except.ok.injEq] at hex
    subst hex
    cases hc : f.cadence with
    | nil =>
      rw [hc] at hip
      simp [intervalPairs] at hip
    | cons c0 rest =>
      rw [hc] at hip h0
      rw [List.getD_cons_zero] at h0
      obtain ⟨hrp, hwp⟩ := intervalPairs_eq_blocks wc c0 rest rp wp hip h0
      have key : ∀ (p : ℕ × ℕ) (k : IKind),
          (p ∈ truePairs (blocksZ wc 0 1 false rest)
            ∨ p ∈ falsePairs (blocksZ wc 0 1 false rest)) →
          p.1 ≠ p.2 →
          0 < (mkInterval f k p).duration ∧ 0 ≤ (mkInterval f k p).distance := by
        intro p k hmem hne
        have hb : ∃ b ∈ blocksZ wc 0 1 false rest, (b.1, b.2.1) = p := by
          rcases hmem with hmem | hmem
          · rw [truePairs] at hmem
            obtain ⟨b, hb, hproj⟩ := List.mem_map.mp hmem
            exact ⟨b, List.mem_of_mem_filter hb, hproj⟩
          · rw [falsePairs] at hmem
            obtain ⟨b, hb, hproj⟩ := List.mem_map.mp hmem
            exact ⟨b, List.mem_of_mem_filter hb, hproj⟩
        obtain ⟨b, hbmem, hproj⟩ := hb
        have hbb := blocksZ_bounds wc rest 0 1 false (by omega) b hbmem
        have hp1 : p.1 = b.1 := by rw [← hproj]
        have hp2 : p.2 = b.2.1 := by rw [← hproj]
        have hcl : f.cadence.length = rest.length + 1 := by
          rw [hc]
          rfl
        have h2t : p.2 < f.time.length := by
          rw [hlt, hcl]
          omega
        have h1t : p.1 < f.time.length := by
          rw [hlt, hcl]
          omega
        have h2d : p.2 < f.distance.length := by
          rw [hld, hcl]
          omega
        have h1d : p.1 < f.distance.length := by
          rw [hld, hcl]
          omega
        have hlt12 : p.1 < p.2 := by omega
        constructor
        · show 0 < f.time.getD p.2 0 - f.time.getD p.1 0
          rw [List.getD_eq_get f.time 0 h2t, List.getD_eq_get f.time 0 h1t]
          have := List.pairwise_iff_get.mp hmt ⟨p.1, h1t⟩ ⟨p.2, h2t⟩
            (Fin.mk_lt_mk.mpr hlt12)
          linarith
        · show 0 ≤ f.distance.getD p.2 0 - f.distance.getD p.1 0
          rw [List.getD_eq_get f.distance 0 h2d, List.getD_eq_get f.distance 0 h1d]
          have := List.pairwise_iff_get.mp hmd ⟨p.1, h1d⟩ ⟨p.2, h2d⟩
            (Fin.mk_lt_mk.mpr hlt12)
          linarith
      intro iv hiv
      rcases List.mem_append.mp hiv with hiv | hiv
      · obtain ⟨p, hp, rfl⟩ := List.mem_map.mp hiv
        refine key p .run (Or.inl ?_) (by simpa using (List.mem_filter.mp hp).2)
        rw [← hrp]
        exact (List.mem_filter.mp hp).1
      · obtain ⟨p, hp, rfl⟩ := List.mem_map.mp hiv
        refine key p .walk (Or.inr ?_) (by simpa using (List.mem_filter.mp hp).2)
        rw [← hwp]
        exact (List.mem_filter.mp hp).1

/-- C7 witness: the amended statement applied to the 10-sample scenario
series, evaluated at the emitted run interval. -/
theorem C7_nonneg_witness :
    0 < ({ start_time := 3, stop_time := 5, start_dist := 9, stop_dist := 15,
           dHR := 0, type := .run, duration := 2, distance := 6,
           hrrate := 0 } : Interval).duration
      ∧ 0 ≤ ({ start_time := 3, stop_time := 5, start_dist := 9,
                stop_dist := 15, dHR := 0, type := .run, duration := 2,
                distance := 6, hrrate := 0 } : Interval).distance :=
  C7_nonneg frame6 158 frame6Intervals rfl rfl (by decide) (by decide)
    (by decide) (by decide) extract_frame6 _ (List.mem_cons_self _ _)

end MAF
